import Mathlib

/-
Shallow embedding of the mini-grep library (src/src/lib.rs).

Strings are modelled as lists of characters.  Rust's `str::lines()` splits
the text after every newline character and then strips a trailing newline,
and after that a trailing carriage return, from each chunk; `str::contains`
is contiguous substring containment; `str::to_lowercase` is modelled as
character-wise lowercasing.  The ambient process environment and the file
system are modelled as explicit injected lookup functions.
-/

namespace MiniGrep

/-- Prepend a character to the first chunk of a chunk list (used by the
splitter below); on an empty chunk list it starts a fresh chunk. -/
def consHead (c : Char) : List (List Char) → List (List Char)
  | [] => [[c]]
  | l :: ls => (c :: l) :: ls

/-- Model of `str::split_inclusive('\n')`: cut the text after every newline
character, keeping the newline at the end of its chunk; the final chunk,
when the text does not end with a newline, has no terminator; the empty
text yields no chunks. -/
def splitInclusiveNl : List Char → List (List Char)
  | [] => []
  | c :: rest =>
    if c = '\n' then ['\n'] :: splitInclusiveNl rest
    else consHead c (splitInclusiveNl rest)

/-- Model of `str::strip_suffix(c)`: remove a final occurrence of `c`,
returning `none` when the list does not end with `c`. -/
def stripSuffixChar (c : Char) : List Char → Option (List Char)
  | [] => none
  | [x] => if x = c then some [] else none
  | x :: y :: rest => (stripSuffixChar c (y :: rest)).map (x :: ·)

/-- The per-line cleanup of Rust's `Lines` iterator: strip one trailing
newline, and when a newline was stripped also strip one trailing carriage
return. -/
def linesMap (l : List Char) : List Char :=
  match stripSuffixChar '\n' l with
  | none => l
  | some l1 =>
    match stripSuffixChar '\r' l1 with
    | none => l1
    | some l2 => l2

/-- Model of `str::lines()` as used by `search` and
`search_case_insensitive` in src/src/lib.rs. -/
def rustLines (contents : List Char) : List (List Char) :=
  (splitInclusiveNl contents).map linesMap

/-- Model of `line.contains(query)`: `query` occurs in `line` as a
contiguous substring. -/
def containsSub (line query : List Char) : Bool :=
  decide (query <:+: line)

/-- The Unicode character-level case data that Rust's standard library
links in and `str::to_lowercase` consults: the simple lowercase mapping of
each character (possibly several characters long) and the Cased and
Case_Ignorable character properties.  Like the process environment and the
file system, this ambient data is injected explicitly; the lowercasing
algorithm itself is modelled below. -/
structure CaseData where
  toLowerChar : Char → List Char
  cased : Char → Bool
  caseIgnorable : Char → Bool

/-- Model of the standard library helper case_ignorable_then_cased: skip
Case_Ignorable characters, then report whether the first remaining
character is Cased (false when none remains). -/
def caseIgnorableThenCased (cd : CaseData) : List Char → Bool
  | [] => false
  | c :: rest =>
    if cd.caseIgnorable c then caseIgnorableThenCased cd rest else cd.cased c

/-- Model of the Final_Sigma test of map_uppercase_sigma in the standard
library: a capital sigma is word-final when, ignoring Case_Ignorable
characters, a Cased character precedes it and no Cased character follows
it. -/
def isWordFinal (cd : CaseData) (before after : List Char) : Bool :=
  caseIgnorableThenCased cd before.reverse && ! caseIgnorableThenCased cd after

/-- The scan of `str::to_lowercase`: each character is replaced by its
simple lowercase mapping, except a capital sigma, which lowercases to the
final form exactly when its position is word-final; `before` holds the
characters already passed, in order. -/
def toLowercaseAux (cd : CaseData) : List Char → List Char → List Char
  | _, [] => []
  | before, c :: rest =>
    (if c = 'Σ' then
      if isWordFinal cd before rest then ['ς'] else ['σ']
     else cd.toLowerChar c) ++ toLowercaseAux cd (before ++ [c]) rest

/-- Model of `str::to_lowercase()` over the injected case data. -/
def toLowercase (cd : CaseData) (s : List Char) : List Char :=
  toLowercaseAux cd [] s

/-- A concrete fragment of the Unicode case data, agreeing with the real
tables on every character appearing in a concrete input of this file:
ASCII, the Latin-1 letters É and é, and the Greek letters Α, Β, Σ, α, β,
σ, ς.  Characters outside the fragment are left unmapped. -/
def caseDataFragment : CaseData where
  toLowerChar c :=
    if c = 'É' then ['é']
    else if c = 'Α' then ['α']
    else if c = 'Β' then ['β']
    else if c = 'Σ' then ['σ']
    else [c.toLower]
  cased c :=
    c.isAlpha || decide (c ∈ ['É', 'é', 'Α', 'Β', 'Σ', 'α', 'β', 'σ', 'ς'])
  caseIgnorable _ := false

/-- Embedding of `search` (src/src/lib.rs lines 70-79): keep, in order,
every line of `contents` that contains `query`. -/
def search (query contents : List Char) : List (List Char) :=
  (rustLines contents).filter (fun line => containsSub line query)

/-- Embedding of `search_case_insensitive` (src/src/lib.rs lines 81-90):
keep, in order, every line whose lowercasing contains the lowercased
query; the case data `cd` is the injected Unicode table. -/
def search_case_insensitive (cd : CaseData) (query contents : List Char) :
    List (List Char) :=
  (rustLines contents).filter
    (fun line => containsSub (toLowercase cd line) (toLowercase cd query))

/-- Embedding of the `Config` struct of src/src/lib.rs. -/
structure Config where
  query : String
  filepath : String
  ignore_case : Bool
deriving Repr, DecidableEq

/-- Embedding of `Config::build` (src/src/lib.rs lines 35-50).  The process
environment is passed in explicitly as a lookup function `envf`; the Rust
code consults it once, through `env::var("MG_IGNORE_CASE").is_ok()`. -/
def Config.build (envf : String → Option String) (args : List String) :
    Except String Config :=
  if h : args.length < 3 then
    .error "Args: query, filepath. Not enough arguments."
  else
    .ok { query := args.get ⟨1, by omega⟩,
          filepath := args.get ⟨2, by omega⟩,
          ignore_case := (envf "MG_IGNORE_CASE").isSome }

/-- Embedding of `run` (src/src/lib.rs lines 53-68).  The file system is
passed in explicitly as `fsRead`; reading the whole file either fails with
the underlying error or yields the file's text.  The Rust function prints
the result list; its logical output, the matched lines in order, is
returned here. -/
def run (cd : CaseData) (fsRead : String → Except String String)
    (config : Config) : Except String (List String) :=
  match fsRead config.filepath with
  | .error e => .error e
  | .ok contents =>
    if config.ignore_case then
      .ok ((search_case_insensitive cd config.query.data contents.data).map
        List.asString)
    else
      .ok ((search config.query.data contents.data).map List.asString)

/-! Helper lemmas about the splitter and the suffix stripper. -/

theorem consHead_ne_nil (c : Char) (ls : List (List Char)) : consHead c ls ≠ [] := by
  cases ls <;> simp [consHead]

theorem consHead_append (c : Char) {ls : List (List Char)}
    (ms : List (List Char)) (h : ls ≠ []) :
    consHead c (ls ++ ms) = consHead c ls ++ ms := by
  cases ls with
  | nil => exact absurd rfl h
  | cons l ls' => simp [consHead]

theorem splitInclusiveNl_ne_nil {a : List Char} (h : a ≠ []) :
    splitInclusiveNl a ≠ [] := by
  cases a with
  | nil => exact absurd rfl h
  | cons c rest =>
    simp only [splitInclusiveNl]
    split
    · simp
    · exact consHead_ne_nil _ _

theorem splitInclusiveNl_cons (c : Char) (x : List Char) :
    splitInclusiveNl (c :: x) =
      if c = '\n' then ['\n'] :: splitInclusiveNl x
      else consHead c (splitInclusiveNl x) := rfl

theorem splitInclusiveNl_append_nl (a b : List Char) :
    splitInclusiveNl (a ++ '\n' :: b) =
      splitInclusiveNl (a ++ ['\n']) ++ splitInclusiveNl b := by
  induction a with
  | nil => simp [splitInclusiveNl_cons, splitInclusiveNl]
  | cons c a ih =>
    rw [List.cons_append, List.cons_append, splitInclusiveNl_cons,
      splitInclusiveNl_cons]
    by_cases hc : c = '\n'
    · rw [if_pos hc, if_pos hc, ih, List.cons_append]
    · rw [if_neg hc, if_neg hc, ih,
        consHead_append _ _ (splitInclusiveNl_ne_nil (by simp))]

theorem splitInclusiveNl_no_nl {a : List Char} (h : '\n' ∉ a) (h2 : a ≠ []) :
    splitInclusiveNl a = [a] := by
  induction a with
  | nil => exact absurd rfl h2
  | cons c a ih =>
    simp only [List.mem_cons, not_or] at h
    rw [splitInclusiveNl_cons, if_neg (Ne.symm h.1)]
    cases a with
    | nil => rfl
    | cons d a' =>
      rw [ih h.2 (by simp)]
      rfl

theorem splitInclusiveNl_single {a : List Char} (h : '\n' ∉ a) :
    splitInclusiveNl (a ++ ['\n']) = [a ++ ['\n']] := by
  induction a with
  | nil => simp [splitInclusiveNl_cons, splitInclusiveNl]
  | cons c a ih =>
    simp only [List.mem_cons, not_or] at h
    rw [List.cons_append, splitInclusiveNl_cons, if_neg (Ne.symm h.1), ih h.2]
    simp [consHead]

theorem stripSuffixChar_append (c : Char) (l : List Char) :
    stripSuffixChar c (l ++ [c]) = some l := by
  induction l with
  | nil => simp [stripSuffixChar]
  | cons x l ih =>
    cases l with
    | nil => simp [stripSuffixChar]
    | cons y l' =>
      have e : stripSuffixChar c ((x :: y :: l') ++ [c]) =
          (stripSuffixChar c ((y :: l') ++ [c])).map (x :: ·) := rfl
      rw [e, ih]
      rfl

theorem stripSuffixChar_not_mem {c : Char} {l : List Char} (h : c ∉ l) :
    stripSuffixChar c l = none := by
  induction l with
  | nil => rfl
  | cons x l ih =>
    simp only [List.mem_cons, not_or] at h
    cases l with
    | nil => simp [stripSuffixChar, Ne.symm h.1]
    | cons y l' => simp [stripSuffixChar, ih h.2]

theorem linesMap_no_nl {t : List Char} (h : '\n' ∉ t) : linesMap t = t := by
  simp [linesMap, stripSuffixChar_not_mem h]

theorem linesMap_crlf (t : List Char) : linesMap (t ++ ['\r', '\n']) = t := by
  have h1 : stripSuffixChar '\n' (t ++ ['\r', '\n']) = some (t ++ ['\r']) := by
    have h2 := stripSuffixChar_append '\n' (t ++ ['\r'])
    simpa using h2
  simp [linesMap, h1, stripSuffixChar_append]

/-! Helper lemmas about `rustLines`. -/

theorem rustLines_nil : rustLines [] = [] := rfl

theorem rustLines_append_nl (a b : List Char) :
    rustLines (a ++ '\n' :: b) = rustLines (a ++ ['\n']) ++ rustLines b := by
  unfold rustLines
  rw [splitInclusiveNl_append_nl, List.map_append]

theorem rustLines_no_nl {t : List Char} (h : '\n' ∉ t) (h2 : t ≠ []) :
    rustLines t = [t] := by
  simp [rustLines, splitInclusiveNl_no_nl h h2, linesMap_no_nl h]

theorem rustLines_crlf {t : List Char} (rest : List Char) (h : '\n' ∉ t) :
    rustLines (t ++ '\r' :: '\n' :: rest) = t :: rustLines rest := by
  have e : t ++ '\r' :: '\n' :: rest = (t ++ ['\r']) ++ '\n' :: rest := by simp
  have h2 : '\n' ∉ t ++ ['\r'] := by
    simp only [List.mem_append, List.mem_singleton, not_or]
    exact ⟨h, by decide⟩
  have h3 : rustLines ((t ++ ['\r']) ++ ['\n']) = [t] := by
    simp only [rustLines, splitInclusiveNl_single h2, List.map_cons, List.map_nil]
    have h4 := linesMap_crlf t
    simpa using h4
  rw [e, rustLines_append_nl, h3]
  rfl

/-! Helper lemmas about the two searches. -/

theorem mem_search {q c l : List Char} :
    l ∈ search q c ↔ l ∈ rustLines c ∧ q <:+: l := by
  simp [search, containsSub, List.mem_filter]

theorem mem_searchCI {cd : CaseData} {q c l : List Char} :
    l ∈ search_case_insensitive cd q c ↔
      l ∈ rustLines c ∧ toLowercase cd q <:+: toLowercase cd l := by
  simp [search_case_insensitive, containsSub, List.mem_filter]

theorem search_sublist_of_lines (q c : List Char) :
    (search q c).Sublist (rustLines c) := List.filter_sublist _

theorem searchCI_sublist_of_lines (cd : CaseData) (q c : List Char) :
    (search_case_insensitive cd q c).Sublist (rustLines c) :=
  List.filter_sublist _

theorem count_search (q c l : List Char) :
    (search q c).count l = if q <:+: l then (rustLines c).count l else 0 := by
  by_cases h : q <:+: l
  · rw [if_pos h]
    exact List.count_filter (by simpa [containsSub])
  · rw [if_neg h]
    refine List.count_eq_zero.mpr ?_
    intro hmem
    exact h (mem_search.mp hmem).2

theorem count_searchCI (cd : CaseData) (q c l : List Char) :
    (search_case_insensitive cd q c).count l =
      if toLowercase cd q <:+: toLowercase cd l
        then (rustLines c).count l else 0 := by
  by_cases h : toLowercase cd q <:+: toLowercase cd l
  · rw [if_pos h]
    exact List.count_filter (by simpa [containsSub])
  · rw [if_neg h]
    refine List.count_eq_zero.mpr ?_
    intro hmem
    exact h (mem_searchCI.mp hmem).2

theorem flatMap_preserves_sub {q l : List Char} (f : Char → List Char)
    (h : q <:+: l) : q.flatMap f <:+: l.flatMap f := by
  obtain ⟨s, t, rfl⟩ := h
  exact ⟨s.flatMap f, t.flatMap f, by simp⟩

theorem nil_sub (l : List Char) : ([] : List Char) <:+: l := ⟨[], l, rfl⟩

/-! Helper lemmas locating a result line's characters inside the contents,
and a member-wise filter monotonicity lemma. -/

theorem flatten_consHead (c : Char) (ls : List (List Char)) :
    (consHead c ls).flatten = c :: ls.flatten := by
  cases ls <;> simp [consHead]

theorem flatten_splitInclusiveNl (a : List Char) :
    (splitInclusiveNl a).flatten = a := by
  induction a with
  | nil => rfl
  | cons c a ih =>
    rw [splitInclusiveNl_cons]
    by_cases hc : c = '\n'
    · rw [if_pos hc, hc]
      simp [ih]
    · rw [if_neg hc, flatten_consHead, ih]

theorem stripSuffixChar_eq_append {ch : Char} {l l' : List Char}
    (h : stripSuffixChar ch l = some l') : l = l' ++ [ch] := by
  induction l generalizing l' with
  | nil => exact Option.noConfusion h
  | cons x xs ih =>
    cases xs with
    | nil =>
      by_cases hx : x = ch
      · simp only [stripSuffixChar, if_pos hx, Option.some.injEq] at h
        simp [← h, hx]
      · simp [stripSuffixChar, hx] at h
    | cons y ys =>
      have e : stripSuffixChar ch (x :: y :: ys) =
          (stripSuffixChar ch (y :: ys)).map (x :: ·) := rfl
      rw [e] at h
      cases hs : stripSuffixChar ch (y :: ys) with
      | none => rw [hs] at h; exact absurd h (by simp)
      | some l'' =>
        rw [hs] at h
        have h' : x :: l'' = l' := Option.some.inj h
        rw [← h', ih hs, List.cons_append]

theorem linesMap_subset (l : List Char) : ∀ x ∈ linesMap l, x ∈ l := by
  intro x
  unfold linesMap
  cases h1 : stripSuffixChar '\n' l with
  | none => exact fun hx => hx
  | some l1 =>
    show x ∈ (match stripSuffixChar '\r' l1 with
      | none => l1
      | some l2 => l2) → x ∈ l
    have e1 := stripSuffixChar_eq_append h1
    cases h2 : stripSuffixChar '\r' l1 with
    | none =>
      intro hx
      rw [e1]
      exact List.mem_append_left _ hx
    | some l2 =>
      have e2 := stripSuffixChar_eq_append h2
      intro hx
      rw [e1, e2]
      exact List.mem_append_left _ (List.mem_append_left _ hx)

theorem rustLines_subset {c l : List Char} (h : l ∈ rustLines c) :
    ∀ x ∈ l, x ∈ c := by
  intro x hx
  obtain ⟨chunk, hchunk, rfl⟩ := List.mem_map.mp h
  have hx' : x ∈ chunk := linesMap_subset chunk x hx
  have : x ∈ (splitInclusiveNl c).flatten := List.mem_flatten.mpr ⟨chunk, hchunk, hx'⟩
  rwa [flatten_splitInclusiveNl] at this

theorem filter_sublist_filter_of_mem {α : Type} {p q : α → Bool}
    (l : List α) (h : ∀ a ∈ l, p a → q a) :
    (l.filter p).Sublist (l.filter q) := by
  induction l with
  | nil => simp
  | cons x l ih =>
    have ih' := ih (fun a ha => h a (List.mem_cons_of_mem _ ha))
    by_cases hp : p x
    · have hq := h x (List.mem_cons_self x l) hp
      rw [List.filter_cons, List.filter_cons, if_pos hp, if_pos hq]
      exact ih'.cons₂ x
    · rw [List.filter_cons, if_neg hp, List.filter_cons]
      by_cases hq : q x
      · rw [if_pos hq]
        exact ih'.cons x
      · rw [if_neg hq]
        exact ih'

/-! Helper lemmas about the lowercasing scan. -/

theorem toLowercaseAux_no_sigma {cd : CaseData} {s : List Char}
    (h : 'Σ' ∉ s) : ∀ b, toLowercaseAux cd b s = s.flatMap cd.toLowerChar := by
  induction s with
  | nil => intro b; rfl
  | cons c s ih =>
    intro b
    simp only [List.mem_cons, not_or] at h
    have e : toLowercaseAux cd b (c :: s) =
        (if c = 'Σ' then
          if isWordFinal cd b s then ['ς'] else ['σ']
         else cd.toLowerChar c) ++ toLowercaseAux cd (b ++ [c]) s := rfl
    rw [e, if_neg (Ne.symm h.1), ih h.2]
    simp

theorem toLowercase_no_sigma {cd : CaseData} {s : List Char} (h : 'Σ' ∉ s) :
    toLowercase cd s = s.flatMap cd.toLowerChar :=
  toLowercaseAux_no_sigma h []

/-! The claims. -/

/-- C1: a line appears in the result of `search(query, contents)` iff it is
a line of `contents` containing `query` as a contiguous, case-sensitive
substring; the result is an order-preserving subsequence of the lines of
`contents` keeping every matching line with its exact multiplicity, so
nothing is omitted, reordered or duplicated. -/
theorem search_correct (q c : List Char) :
    (search q c).Sublist (rustLines c) ∧
    (∀ l, l ∈ search q c ↔ l ∈ rustLines c ∧ q <:+: l) ∧
    (∀ l, (search q c).count l =
      if q <:+: l then (rustLines c).count l else 0) :=
  ⟨search_sublist_of_lines q c, fun _ => mem_search, fun l => count_search q c l⟩

/-- C1 witness: on the poem of the repository's unit test, the line
containing the query is in the result and the non-matching first line is
not. -/
theorem search_correct_witness :
    "safe, fast, productive.".data ∈
      search "duct".data "Rust:\nsafe, fast, productive.\nPick three.".data ∧
    "Rust:".data ∉
      search "duct".data "Rust:\nsafe, fast, productive.\nPick three.".data := by
  constructor
  · exact ((search_correct "duct".data
      "Rust:\nsafe, fast, productive.\nPick three.".data).2.1 _).mpr
      ⟨by decide, by decide⟩
  · intro hmem
    have h := ((search_correct "duct".data
      "Rust:\nsafe, fast, productive.\nPick three.".data).2.1 _).mp hmem
    exact absurd h.2 (by decide)

/-- C2: for every case data, so in particular for the Unicode tables the
program links in, a line appears in the result of
`search_case_insensitive(query, contents)` iff it is a line of `contents`
whose lowercasing contains the lowercased query, the same folding applied
to both operands by the algorithm of `str::to_lowercase`; splitting and
ordering are as in `search`: the result is an order-preserving
subsequence of the same `rustLines`. -/
theorem search_case_insensitive_correct (cd : CaseData) (q c : List Char) :
    (search_case_insensitive cd q c).Sublist (rustLines c) ∧
    (∀ l, l ∈ search_case_insensitive cd q c ↔
      l ∈ rustLines c ∧ toLowercase cd q <:+: toLowercase cd l) :=
  ⟨searchCI_sublist_of_lines cd q c, fun _ => mem_searchCI⟩

/-- C2 witness: over the concrete table fragment, the query rUsT matches
the line Rust: of the repository's unit test, and the full run returns
exactly the two case-insensitive matches in order. -/
theorem search_case_insensitive_correct_witness :
    "Rust:".data ∈ search_case_insensitive caseDataFragment "rUsT".data
      "Rust:\nsafe, fast, productive.\nPick three.\nTrust me.".data ∧
    search_case_insensitive caseDataFragment "rUsT".data
      "Rust:\nsafe, fast, productive.\nPick three.\nTrust me.".data =
      ["Rust:".data, "Trust me.".data] := by
  constructor
  · exact ((search_case_insensitive_correct caseDataFragment "rUsT".data
      "Rust:\nsafe, fast, productive.\nPick three.\nTrust me.".data).2 _).mpr
      ⟨by decide, by decide⟩
  · decide

/-- C3: `Config::build` fails exactly when fewer than 3 arguments are
supplied, with the fixed message of src/src/lib.rs; with at least 3
arguments it always succeeds, taking the query from index 1 and the file
path from index 2, with no further validation of their contents. -/
theorem build_spec (envf : String → Option String) (args : List String) :
    (args.length < 3 →
      Config.build envf args =
        .error "Args: query, filepath. Not enough arguments.") ∧
    (∀ h : 3 ≤ args.length,
      Config.build envf args =
        .ok { query := args.get ⟨1, by omega⟩,
              filepath := args.get ⟨2, by omega⟩,
              ignore_case := (envf "MG_IGNORE_CASE").isSome }) := by
  constructor
  · intro h
    simp [Config.build, h]
  · intro h
    simp [Config.build, Nat.not_lt.mpr h]

/-- C3 witness: two arguments give the fixed error; three arguments give a
configuration holding the query and the file path, whatever they are. -/
theorem build_spec_witness :
    Config.build (fun _ => none) ["mini-grep", "duct"] =
      .error "Args: query, filepath. Not enough arguments." ∧
    Config.build (fun _ => some "1") ["mini-grep", "duct", "no-such-file"] =
      .ok { query := "duct", filepath := "no-such-file", ignore_case := true } := by
  constructor
  · exact (build_spec (fun _ => none) ["mini-grep", "duct"]).1 (by decide)
  · exact (build_spec (fun _ => some "1")
      ["mini-grep", "duct", "no-such-file"]).2 (by decide)

/-- C4: with enough arguments, `Config::build` succeeds and sets
`ignore_case` to whether the environment variable MG_IGNORE_CASE is
present, whatever its value (also the empty string); and the result of
`build` depends on the environment only through that one variable. -/
theorem build_env_only (envf envf2 : String → Option String)
    (args : List String) (h : 3 ≤ args.length)
    (henv : envf "MG_IGNORE_CASE" = envf2 "MG_IGNORE_CASE") :
    (∃ cfg, Config.build envf args = .ok cfg ∧
      cfg.ignore_case = (envf "MG_IGNORE_CASE").isSome) ∧
    Config.build envf args = Config.build envf2 args := by
  have h' : ¬ args.length < 3 := Nat.not_lt.mpr h
  constructor
  · exact ⟨{ query := args.get ⟨1, by omega⟩,
             filepath := args.get ⟨2, by omega⟩,
             ignore_case := (envf "MG_IGNORE_CASE").isSome },
           by simp [Config.build, h'], rfl⟩
  · simp [Config.build, h', henv]

/-- C4 witness: an environment holding MG_IGNORE_CASE with the empty value
yields ignore_case true, and an environment agreeing on that one variable
but differing elsewhere yields the same configuration. -/
theorem build_env_only_witness :
    (∃ cfg,
      Config.build (fun _ => some "") ["mini-grep", "q", "f"] = .ok cfg ∧
      cfg.ignore_case =
        ((fun _ : String => some "") "MG_IGNORE_CASE").isSome) ∧
    Config.build (fun _ => some "") ["mini-grep", "q", "f"] =
      Config.build
        (fun n => if n = "MG_IGNORE_CASE" then some "" else none)
        ["mini-grep", "q", "f"] :=
  build_env_only _ _ _ (by decide) (by simp)

/-- C5: both searches are total functions returning plain lists: empty
contents yield the empty result, and contents without a trailing newline
still have their last line split off and considered, so a match in that
last line is found. -/
theorem search_total (cd : CaseData) (q c t : List Char)
    (h1 : '\n' ∉ t) (h2 : t ≠ []) :
    search q [] = [] ∧
    search_case_insensitive cd q [] = [] ∧
    rustLines (c ++ '\n' :: t) = rustLines (c ++ ['\n']) ++ [t] ∧
    (q <:+: t → t ∈ search q (c ++ '\n' :: t)) := by
  refine ⟨rfl, rfl, ?_, ?_⟩
  · rw [rustLines_append_nl, rustLines_no_nl h1 h2]
  · intro hq
    refine mem_search.mpr ⟨?_, hq⟩
    rw [rustLines_append_nl, rustLines_no_nl h1 h2]
    simp

/-- C5 witness: the last line of a text with no trailing newline is found
when it matches the query. -/
theorem search_total_witness :
    search "ree.".data [] = [] ∧
    search_case_insensitive caseDataFragment "ree.".data [] = [] ∧
    rustLines ("Rust:".data ++ '\n' :: "Pick three.".data) =
      rustLines ("Rust:".data ++ ['\n']) ++ ["Pick three.".data] ∧
    ("ree.".data <:+: "Pick three.".data →
      "Pick three.".data ∈
        search "ree.".data ("Rust:".data ++ '\n' :: "Pick three.".data)) :=
  search_total caseDataFragment "ree.".data "Rust:".data "Pick three.".data
    (by decide) (by decide)

/-- C6: the empty query matches every line, for both searches and every
case data, since the empty query lowercases to the empty string, a
substring of every lowercased line: the result is the full line sequence
of the contents. -/
theorem empty_query_all_lines (cd : CaseData) (c : List Char) :
    search [] c = rustLines c ∧
    search_case_insensitive cd [] c = rustLines c := by
  constructor
  · refine List.filter_eq_self.mpr ?_
    intro l _
    simp only [containsSub, decide_eq_true_eq]
    exact nil_sub l
  · refine List.filter_eq_self.mpr ?_
    intro l _
    simp only [containsSub, decide_eq_true_eq]
    exact nil_sub (toLowercase cd l)

/-- C7: `run` fails with exactly the file-read error when reading the file
at `config.filepath` fails, and on a successful read returns the matched
lines in order, dispatching on `config.ignore_case` between the two
searches. -/
theorem run_spec (cd : CaseData) (fsRead : String → Except String String)
    (config : Config) :
    (∀ e, fsRead config.filepath = .error e →
      run cd fsRead config = .error e) ∧
    (∀ s, fsRead config.filepath = .ok s →
      run cd fsRead config = .ok
        ((if config.ignore_case then
            search_case_insensitive cd config.query.data s.data
          else search config.query.data s.data).map List.asString)) := by
  constructor
  · intro e he
    simp [run, he]
  · intro s hs
    by_cases hic : config.ignore_case <;> simp [run, hs, hic]

/-- C7 witness: a failing read surfaces the error untouched; a successful
read of a one-line file returns that line when it matches. -/
theorem run_spec_witness :
    run caseDataFragment (fun _ => .error "No such file or directory")
        { query := "duct", filepath := "poem.txt", ignore_case := false } =
      .error "No such file or directory" ∧
    run caseDataFragment (fun _ => .ok "safe, fast, productive.")
        { query := "duct", filepath := "poem.txt", ignore_case := false } =
      .ok ["safe, fast, productive."] := by
  constructor
  · exact (run_spec caseDataFragment
      (fun _ => .error "No such file or directory")
      { query := "duct", filepath := "poem.txt", ignore_case := false }).1 _ rfl
  · exact ((run_spec caseDataFragment (fun _ => .ok "safe, fast, productive.")
      { query := "duct", filepath := "poem.txt", ignore_case := false }).2
      "safe, fast, productive." rfl).trans rfl

/-- C8: each search result is a (possibly empty) order-preserving
subsequence of the lines of the contents, and the multiplicity of every
line in the result is exactly its multiplicity among the lines when it
matches and zero otherwise: no deduplication, no sorting, no truncation
or limit on the number of results, and no duplicates beyond duplicate
matching lines. -/
theorem results_subsequence (cd : CaseData) (q c : List Char) :
    (search q c).Sublist (rustLines c) ∧
    (search_case_insensitive cd q c).Sublist (rustLines c) ∧
    (∀ l, (search q c).count l =
      if q <:+: l then (rustLines c).count l else 0) ∧
    (∀ l, (search_case_insensitive cd q c).count l =
      if toLowercase cd q <:+: toLowercase cd l
        then (rustLines c).count l else 0) :=
  ⟨search_sublist_of_lines q c, searchCI_sublist_of_lines cd q c,
   fun l => count_search q c l,
   fun l => count_searchCI cd q c l⟩

/-- C9 counterexample: with the concrete table fragment, which agrees
with Unicode on the Greek letters involved, the line ΑΣ is returned by
`search` for the query Σ but not by `search_case_insensitive`: the query
alone lowercases to σ while the sigma of the line, being word-final,
lowercases to ς, so the lowercased line ας does not contain σ. -/
theorem search_subseq_of_ci_cex :
    "ΑΣ".data ∈ search "Σ".data "ΑΣ".data ∧
    "ΑΣ".data ∉
      search_case_insensitive caseDataFragment "Σ".data "ΑΣ".data := by
  constructor
  · decide
  · decide

/-- C9 amended: when the contents contain no capital sigma, the one
character the lowercasing of `str::to_lowercase` treats
context-sensitively, every line returned by `search` is also returned by
`search_case_insensitive`, whatever the case data: the case-sensitive
result is an order-preserving subsequence of the case-insensitive one. -/
theorem search_subseq_of_ci (cd : CaseData) (q c : List Char)
    (hc : 'Σ' ∉ c) :
    (search q c).Sublist (search_case_insensitive cd q c) := by
  unfold search search_case_insensitive
  refine filter_sublist_filter_of_mem _ ?_
  intro l hl hp
  simp only [containsSub, decide_eq_true_eq] at hp ⊢
  have hlns : 'Σ' ∉ l := fun hx => hc (rustLines_subset hl _ hx)
  have hqns : 'Σ' ∉ q := fun hx => hlns (hp.subset hx)
  rw [toLowercase_no_sigma hqns, toLowercase_no_sigma hlns]
  exact flatMap_preserves_sub cd.toLowerChar hp

/-- C9 amended witness: on the sigma-free poem of the unit tests the
case-sensitive result is a subsequence of the case-insensitive one. -/
theorem search_subseq_of_ci_witness :
    (search "duct".data
        "Rust:\nsafe, fast, productive.\nPick three.\nTrust me.".data).Sublist
      (search_case_insensitive caseDataFragment "duct".data
        "Rust:\nsafe, fast, productive.\nPick three.\nTrust me.".data) :=
  search_subseq_of_ci caseDataFragment "duct".data
    "Rust:\nsafe, fast, productive.\nPick three.\nTrust me.".data (by decide)

/-- C10: a line terminated by a carriage return and newline has the
carriage return stripped during splitting, so the returned line view ends
at the last visible character and a query ending there still matches, for
both searches. -/
theorem crlf_stripped (cd : CaseData) (q t rest : List Char)
    (h : '\n' ∉ t) :
    rustLines (t ++ '\r' :: '\n' :: rest) = t :: rustLines rest ∧
    search q (t ++ '\r' :: '\n' :: rest) =
      (if q <:+: t then [t] else []) ++ search q rest ∧
    search_case_insensitive cd q (t ++ '\r' :: '\n' :: rest) =
      (if toLowercase cd q <:+: toLowercase cd t then [t] else []) ++
        search_case_insensitive cd q rest := by
  refine ⟨rustLines_crlf rest h, ?_, ?_⟩
  · rw [search, rustLines_crlf rest h, List.filter_cons]
    by_cases hq : q <:+: t
    · simp [containsSub, hq, search]
    · simp [containsSub, hq, search]
  · rw [search_case_insensitive, rustLines_crlf rest h, List.filter_cons]
    by_cases hq : toLowercase cd q <:+: toLowercase cd t
    · simp [containsSub, hq, search_case_insensitive]
    · simp [containsSub, hq, search_case_insensitive]

/-- C10 witness: a query ending at the last visible character of a line
with a carriage-return-newline terminator still matches, and the returned
line carries no carriage return. -/
theorem crlf_stripped_witness :
    rustLines ("Pick three.".data ++ '\r' :: '\n' :: "Trust me.".data) =
      "Pick three.".data :: rustLines "Trust me.".data ∧
    search "ree.".data ("Pick three.".data ++ '\r' :: '\n' :: "Trust me.".data) =
      (if "ree.".data <:+: "Pick three.".data
        then ["Pick three.".data] else []) ++
        search "ree.".data "Trust me.".data ∧
    search_case_insensitive caseDataFragment "ree.".data
        ("Pick three.".data ++ '\r' :: '\n' :: "Trust me.".data) =
      (if toLowercase caseDataFragment "ree.".data <:+:
          toLowercase caseDataFragment "Pick three.".data
        then ["Pick three.".data] else []) ++
        search_case_insensitive caseDataFragment "ree.".data "Trust me.".data :=
  crlf_stripped caseDataFragment "ree.".data "Pick three.".data
    "Trust me.".data (by decide)

end MiniGrep
